import Mathlib

/-!
Verification of the triple-rewriting tool `scripts/enrichment/ncit_def_extractor.py`.

The script loads an RDF graph, and for each subject carrying an
`rdfs:seeAlso` triple it re-expresses its two `rdfs:comment` annotations as a
definition (`IAO_0000115`) and a synonym (`oboInOwl:hasSynonym`), each wrapped
in a reified `owl:Axiom` node carrying an `oboInOwl:hasDbXref`, and then
removes the original annotations.

The embedding below models the rdflib graph as a list of triples in store
order with set semantics (adding an already-present triple is a no-op), and
models the supply of fresh blank nodes (`BNode()`) by a counter carried in the
graph.  File loading and serialisation are out of scope (the spec treats the
RDF parsing/serialisation library as an external collaborator); the core
rewriting pass `migrate` is modelled on the in-memory graph.
-/

namespace Hpvco

/-- An RDF term: an IRI, a blank node, or a literal.  A literal carries its
lexical value together with an optional language tag and an optional datatype
IRI; rdflib compares literals by all three components, so `Literal("x")`,
`Literal("x", lang="en")` and a `URIRef("x")` are pairwise distinct terms. -/
inductive Node where
  | iri   (s : String)
  | bnode (id : Nat)
  | lit   (value : String) (lang : Option String) (datatype : Option String)
deriving DecidableEq

/-- A subject-predicate-object statement. -/
abbrev Triple := Node × Node × Node

/-- The in-memory graph: the triples in store order, plus the counter feeding
`BNode()` generation.  rdflib stores are sets of triples; the embedding keeps
the invariant that `triples` has no duplicates (see `Graph.wf`). -/
structure Graph where
  triples : List Triple
  nextB   : Nat
deriving DecidableEq

/-- `g.add(t)`: set-semantics insertion, appending at the end of store order. -/
def Graph.add (g : Graph) (t : Triple) : Graph :=
  if t ∈ g.triples then g else { g with triples := g.triples ++ [t] }

/-- `g.remove(t)`: delete the triple if present. -/
def Graph.removeT (g : Graph) (t : Triple) : Graph :=
  { g with triples := g.triples.filter (fun u => decide (u ≠ t)) }

/-- `g.objects(s, p)`: the objects of all triples with subject `s` and
predicate `p`, in store order. -/
def Graph.objects (g : Graph) (s p : Node) : List Node :=
  (g.triples.filter (fun t => decide (t.1 = s ∧ t.2.1 = p))).map (fun t => t.2.2)

/-- `g.subjects(p, None)` with the rdflib default `unique=False`: one subject
per matching triple, in store order, duplicates included. -/
def Graph.subjectsWithPred (g : Graph) (p : Node) : List Node :=
  (g.triples.filter (fun t => decide (t.2.1 = p))).map (fun t => t.1)

/-! ### The predicate and class constants of the script -/

def RDFS_seeAlso : Node := .iri "http://www.w3.org/2000/01/rdf-schema#seeAlso"
def RDFS_comment : Node := .iri "http://www.w3.org/2000/01/rdf-schema#comment"
def RDF_type : Node := .iri "http://www.w3.org/1999/02/22-rdf-syntax-ns#type"
def OWL_Axiom : Node := .iri "http://www.w3.org/2002/07/owl#Axiom"
def OWL_annotatedSource : Node := .iri "http://www.w3.org/2002/07/owl#annotatedSource"
def OWL_annotatedProperty : Node := .iri "http://www.w3.org/2002/07/owl#annotatedProperty"
def OWL_annotatedTarget : Node := .iri "http://www.w3.org/2002/07/owl#annotatedTarget"
def IAO_DEF : Node := .iri "http://purl.obolibrary.org/obo/IAO_0000115"
def HAS_SYN : Node := .iri "http://www.geneontology.org/formats/oboInOwl#hasSynonym"
def HAS_XREF : Node := .iri "http://www.geneontology.org/formats/oboInOwl#hasDbXref"

/-- Python `str()` applied to an RDF term: the lexical value of a literal, the
IRI text of a `URIRef`, the generated id of a `BNode`. -/
def pyStr : Node → String
  | .iri s => s
  | .bnode k => "_:b" ++ toString k
  | .lit v _ _ => v

/-- `Literal(s)` in rdflib: a plain literal with no language tag and no
datatype. -/
def plainLit (s : String) : Node := .lit s none none

/-- Python `s.startswith(pre)`: `pre` is a prefix of the character sequence of
`s`. -/
def pyStartsWith (s pre : String) : Bool := pre.data.isPrefixOf s.data

/-- Line 77 of the script:
`ncit_id = ncit_raw if ncit_raw.startswith("NCIT:") else f"NCIT:\x7bncit_raw\x7d"`. -/
def normalizeXref (s : String) : String :=
  if pyStartsWith s "NCIT:" then s else "NCIT:" ++ s

/-- The graft operation of lines 31-52 of the script (there named with a
snake-case identifier): add the assertion
triple and a fresh reified axiom node describing it, tagged with the
cross-reference. -/
def graftAxiom (g : Graph) (subj prop tgt_literal xref_literal : Node) : Graph :=
  let g1 := g.add (subj, prop, tgt_literal)
  let ax : Node := .bnode g1.nextB
  let g2 : Graph := { g1 with nextB := g1.nextB + 1 }
  let g3 := g2.add (ax, RDF_type, OWL_Axiom)
  let g4 := g3.add (ax, OWL_annotatedSource, subj)
  let g5 := g4.add (ax, OWL_annotatedProperty, prop)
  let g6 := g5.add (ax, OWL_annotatedTarget, tgt_literal)
  g6.add (ax, HAS_XREF, xref_literal)

/-- The sort order of line 84: `key=lambda lit: len(str(lit))`, comparing the
codepoint counts of the `str()` forms. -/
def lenLE (a b : Node) : Prop := (pyStr a).length ≤ (pyStr b).length

instance : DecidableRel lenLE := fun a b => Nat.decLe (pyStr a).length (pyStr b).length

instance : IsTotal Node lenLE := ⟨fun a b => Nat.le_total (pyStr a).length (pyStr b).length⟩

instance : IsTrans Node lenLE := ⟨fun _ _ _ => Nat.le_trans⟩

/-- `coms_sorted[0]` of line 85: Python `sorted` is a stable ascending sort;
a stable sort of a list is uniquely determined by the order, so it is modelled
by the (also stable) `List.insertionSort`. -/
def selName (coms : List Node) : Node := (coms.insertionSort lenLE).headD (plainLit "")

/-- `coms_sorted[-1]` of line 85. -/
def selDef (coms : List Node) : Node := (coms.insertionSort lenLE).getLastD (plainLit "")

/-- The values a processed loop iteration computed: the visited subject, the
chosen name/synonym and definition literals, and the raw see-also text
`ncit_raw`.  The trace of these records instruments the run; it does not
influence the resulting graph or count. -/
structure ProcRec where
  cls : Node
  nameLit : Node
  defLit : Node
  rawStr : String
deriving DecidableEq

/-- The mutation steps 3 and 4 of the loop body (lines 88-94), for a subject
`cls` whose first see-also object is `o`: two grafts, then the three removals.
The see-also removal rebuilds a plain `Literal` from `str(o)`, exactly as
line 94 does. -/
def processBody (g : Graph) (cls o : Node) : Graph :=
  (((graftAxiom
        (graftAxiom g cls IAO_DEF (selDef (g.objects cls RDFS_comment))
          (plainLit (normalizeXref (pyStr o))))
        cls HAS_SYN (selName (g.objects cls RDFS_comment))
        (plainLit (normalizeXref (pyStr o)))).removeT
      (cls, RDFS_comment, selName (g.objects cls RDFS_comment))).removeT
    (cls, RDFS_comment, selDef (g.objects cls RDFS_comment))).removeT
  (cls, RDFS_seeAlso, plainLit (pyStr o))

/-- One iteration of the `for cls in g.subjects(RDFS.seeAlso, None)` body
(lines 75-96).  Returns the mutated graph and, when the subject was processed,
the record of the values used.  A subject is skipped (no mutation, not
counted) when it has fewer than two comment objects.  The empty see-also
match arm is unreachable for subjects produced by the enumeration. -/
def processVisit (g : Graph) (cls : Node) : Graph × Option ProcRec :=
  match g.objects cls RDFS_seeAlso with
  | [] => (g, none)
  | o :: _ =>
    if (g.objects cls RDFS_comment).length < 2 then (g, none)
    else (processBody g cls o,
          some ⟨cls, selName (g.objects cls RDFS_comment),
                selDef (g.objects cls RDFS_comment), pyStr o⟩)

/-- The subject loop of `migrate`, over the listed subject occurrences.
Returns the final graph, the processed count, and the trace of processed
records. -/
def migrateLoop : Graph → List Node → Graph × Nat × List ProcRec
  | g, [] => (g, 0, [])
  | g, cls :: rest =>
    match processVisit g cls with
    | (g1, none) => migrateLoop g1 rest
    | (g1, some r) =>
      let res := migrateLoop g1 rest
      (res.1, res.2.1 + 1, r :: res.2.2)

/-- The in-memory core of `migrate` (lines 74-96): the subject enumeration
`g.subjects(RDFS.seeAlso, None)` is modelled as the list of see-also subject
occurrences of the graph at loop entry, one occurrence per see-also triple.
Loading and serialisation (lines 64-70 and 98-104) are out of scope. -/
def migrateGraph (g : Graph) : Graph × Nat × List ProcRec :=
  migrateLoop g (g.subjectsWithPred RDFS_seeAlso)

/-! ### Well-formedness of a graph state -/

/-- The blank-node ids occurring in `n` are below the bound `b`. -/
def nodeFresh (n : Node) (b : Nat) : Bool :=
  match n with
  | .bnode k => decide (k < b)
  | _ => true

/-- All three components of `t` only use blank-node ids below `b`. -/
def tripleFresh (t : Triple) (b : Nat) : Bool :=
  nodeFresh t.1 b && nodeFresh t.2.1 b && nodeFresh t.2.2 b

/-- A graph state reachable from parsing a file: the store holds each triple
once, and every blank node already present was allocated below the fresh
counter. -/
def Graph.wf (g : Graph) : Prop :=
  g.triples.Nodup ∧ ∀ t ∈ g.triples, tripleFresh t g.nextB = true

instance (g : Graph) : Decidable g.wf := by
  unfold Graph.wf; infer_instance

/-! ### The pre-flight control flow of `main` (lines 144-160)

The filesystem is abstracted by the two boolean outcomes the code branches
on; the effects on the world are listed in program order. -/

/-- Outcomes of the two path checks `src_path.exists()` and
`src_path.is_file()`. -/
structure FsView where
  srcExists : Bool
  srcIsFile : Bool
deriving DecidableEq

/-- The world-changing actions `main` can take after argument parsing:
creating the missing parents of the destination, and running the migration
(the only step that writes the output file). -/
inductive Effect where
  | mkdirParents
  | runMigrate
deriving DecidableEq

/-- The control flow of `main` after argument parsing: validate the source
path, then create the destination parents, then migrate.  Returns the exit
code forced by pre-flight validation (`none` when the run proceeds) together
with the effects performed, in order. -/
def mainSteps (fs : FsView) : Option Nat × List Effect :=
  if !fs.srcExists then (some 1, [])
  else if !fs.srcIsFile then (some 1, [])
  else (none, [Effect.mkdirParents, Effect.runMigrate])

/-- The triples of a graph whose subject is `c`, in store order. -/
def subjTriples (g : Graph) (c : Node) : List Triple :=
  g.triples.filter (fun t => decide (t.1 = c))

/-! ### Concrete graphs used in the scenario theorems

`gC1` is the end-to-end input of the spec.  The remaining graphs exercise
particular branches: a graph already holding the assertion triple (`gC2`), a
class whose see-also object is an IRI rather than a plain literal (`gC3`),
classes with two see-also triples and four comments (`gC4`, `gC6`), and small
single-class graphs used to instantiate the universally quantified theorems
(`gW2` through `gW10`). -/

def exC123 : Node := .iri "ex:C123"

def shortName : Node := plainLit "Short name"

def longDef : Node := plainLit "A much longer descriptive definition of the concept."

def gC1 : Graph :=
  ⟨[(exC123, RDFS_seeAlso, plainLit "C999"),
    (exC123, RDFS_comment, shortName),
    (exC123, RDFS_comment, longDef)], 0⟩

def gC2 : Graph := ⟨[(Node.iri "s", Node.iri "p", plainLit "l")], 0⟩

def dC3 : Node := .iri "ex:d3"

def gC3 : Graph :=
  ⟨[(dC3, RDFS_seeAlso, Node.iri "C9"),
    (dC3, RDFS_comment, plainLit "nm"),
    (dC3, RDFS_comment, plainLit "longer def")], 0⟩

def cC4 : Node := .iri "ex:c4"

def gC4 : Graph :=
  ⟨[(cC4, RDFS_seeAlso, plainLit "A"),
    (cC4, RDFS_seeAlso, plainLit "B"),
    (cC4, RDFS_comment, plainLit "n1"),
    (cC4, RDFS_comment, plainLit "n22"),
    (cC4, RDFS_comment, plainLit "n333"),
    (cC4, RDFS_comment, plainLit "n4444")], 0⟩

def cC6 : Node := .iri "ex:c6"

def gC6 : Graph :=
  ⟨[(cC6, RDFS_seeAlso, plainLit "P"),
    (cC6, RDFS_seeAlso, plainLit "Q"),
    (cC6, RDFS_comment, plainLit "m1"),
    (cC6, RDFS_comment, plainLit "m22"),
    (cC6, RDFS_comment, plainLit "m333"),
    (cC6, RDFS_comment, plainLit "m4444")], 0⟩

def gW2 : Graph := ⟨[], 0⟩

def cW3 : Node := .iri "ex:w3"

def gW3 : Graph :=
  ⟨[(cW3, RDFS_seeAlso, plainLit "X1"),
    (cW3, RDFS_comment, plainLit "a"),
    (cW3, RDFS_comment, plainLit "bb")], 0⟩

def rW3 : ProcRec := ⟨cW3, plainLit "a", plainLit "bb", "X1"⟩

def cW4 : Node := .iri "ex:w4"

def gW4 : Graph :=
  ⟨[(cW4, RDFS_seeAlso, plainLit "Z"),
    (cW4, RDFS_comment, plainLit "a"),
    (cW4, RDFS_comment, plainLit "bb")], 0⟩

def cW5 : Node := .iri "ex:w5"

def gW5 : Graph :=
  ⟨[(cW5, RDFS_seeAlso, plainLit "Z"),
    (cW5, RDFS_comment, plainLit "only")], 0⟩

def cW7 : Node := .iri "ex:w7"

def gW7 : Graph :=
  ⟨[(cW7, RDFS_seeAlso, plainLit "Z"),
    (cW7, RDFS_comment, plainLit "bb"),
    (cW7, RDFS_comment, plainLit "a")], 0⟩

def g1W7 : Graph := processBody gW7 cW7 (plainLit "Z")

def rW7 : ProcRec := ⟨cW7, plainLit "a", plainLit "bb", "Z"⟩

def gW10 : Graph := ⟨[(Node.iri "a", Node.iri "b", plainLit "c")], 5⟩

/-! ### Lemmas about the store operations -/

theorem Graph.mem_add {g : Graph} {t u : Triple} :
    u ∈ (g.add t).triples ↔ u ∈ g.triples ∨ u = t := by
  by_cases h : t ∈ g.triples
  · simp only [Graph.add, if_pos h]
    constructor
    · exact Or.inl
    · rintro (hu | rfl)
      · exact hu
      · exact h
  · simp [Graph.add, if_neg h]

theorem Graph.add_nextB (g : Graph) (t : Triple) : (g.add t).nextB = g.nextB := by
  unfold Graph.add
  split <;> rfl

theorem Graph.mem_removeT {g : Graph} {t u : Triple} :
    u ∈ (g.removeT t).triples ↔ u ∈ g.triples ∧ u ≠ t := by
  simp [Graph.removeT, List.mem_filter]

theorem Graph.removeT_nextB (g : Graph) (t : Triple) : (g.removeT t).nextB = g.nextB := rfl

theorem subjTriples_add {g : Graph} {t : Triple} {c : Node} (h : t.1 ≠ c) :
    subjTriples (g.add t) c = subjTriples g c := by
  unfold subjTriples Graph.add
  split
  · rfl
  · simp [h]

theorem subjTriples_removeT {g : Graph} {t : Triple} {c : Node} (h : t.1 ≠ c) :
    subjTriples (g.removeT t) c = subjTriples g c := by
  unfold subjTriples Graph.removeT
  rw [List.filter_filter]
  apply List.filter_congr
  intro a _
  by_cases ha : a.1 = c
  · have : a ≠ t := by
      intro rfl_eq
      exact h (rfl_eq ▸ ha)
    simp [ha, this]
  · simp [ha]

/-- The objects listing factors through the subject-restricted triples. -/
theorem objects_eq_subjTriples (g : Graph) (c p : Node) :
    g.objects c p
      = ((subjTriples g c).filter (fun t => decide (t.2.1 = p))).map (fun t => t.2.2) := by
  unfold Graph.objects subjTriples
  rw [List.filter_filter]
  congr 1
  apply List.filter_congr
  intro a _
  by_cases h1 : a.1 = c <;> by_cases h2 : a.2.1 = p <;> simp [h1, h2]

theorem objects_congr {g g' : Graph} {c : Node} (h : subjTriples g c = subjTriples g' c)
    (p : Node) : g.objects c p = g'.objects c p := by
  rw [objects_eq_subjTriples, objects_eq_subjTriples, h]

theorem nodeFresh_ne_bnode {n : Node} {b : Nat} (h : nodeFresh n b = true) :
    n ≠ Node.bnode b := by
  cases n with
  | bnode k =>
    simp only [nodeFresh, decide_eq_true_eq] at h
    intro hc
    cases hc
    omega
  | iri s => intro hc; cases hc
  | lit v l d => intro hc; cases hc

theorem nodeFresh_mono {n : Node} {b b' : Nat} (hb : b ≤ b') (h : nodeFresh n b = true) :
    nodeFresh n b' = true := by
  cases n with
  | bnode k =>
    simp only [nodeFresh, decide_eq_true_eq] at *
    omega
  | iri s => rfl
  | lit v l d => rfl

/-! ### Lemmas about `graftAxiom` -/

theorem graft_nextB (g : Graph) (s p l x : Node) :
    (graftAxiom g s p l x).nextB = g.nextB + 1 := by
  simp [graftAxiom, Graph.add_nextB]

theorem mem_graft {g : Graph} {s p l x : Node} {u : Triple} :
    u ∈ (graftAxiom g s p l x).triples ↔
      u ∈ g.triples ∨ u = (s, p, l) ∨
      u = (Node.bnode g.nextB, RDF_type, OWL_Axiom) ∨
      u = (Node.bnode g.nextB, OWL_annotatedSource, s) ∨
      u = (Node.bnode g.nextB, OWL_annotatedProperty, p) ∨
      u = (Node.bnode g.nextB, OWL_annotatedTarget, l) ∨
      u = (Node.bnode g.nextB, HAS_XREF, x) := by
  simp only [graftAxiom, Graph.mem_add, Graph.add_nextB]
  tauto

theorem subjTriples_add_t {g : Graph} {a b d c : Node} (h : a ≠ c) :
    subjTriples (g.add (a, b, d)) c = subjTriples g c := subjTriples_add h

theorem subjTriples_removeT_t {g : Graph} {a b d c : Node} (h : a ≠ c) :
    subjTriples (g.removeT (a, b, d)) c = subjTriples g c := subjTriples_removeT h

theorem subjTriples_bump (g : Graph) (b : Nat) (c : Node) :
    subjTriples { g with nextB := b } c = subjTriples g c := rfl

theorem subjTriples_graft {g : Graph} {s p l x c : Node} (hne : s ≠ c)
    (hfr : nodeFresh c g.nextB = true) :
    subjTriples (graftAxiom g s p l x) c = subjTriples g c := by
  have hax : (Node.bnode (g.add (s, p, l)).nextB : Node) ≠ c := by
    rw [Graph.add_nextB]
    exact (nodeFresh_ne_bnode hfr).symm
  simp only [graftAxiom]
  rw [subjTriples_add_t hax, subjTriples_add_t hax, subjTriples_add_t hax,
    subjTriples_add_t hax, subjTriples_add_t hax, subjTriples_bump,
    subjTriples_add_t hne]

/-! ### Lemmas about the loop body -/

theorem processBody_nextB (g : Graph) (cls o : Node) :
    (processBody g cls o).nextB = g.nextB + 2 := by
  simp [processBody, Graph.removeT_nextB, graft_nextB]

theorem subjTriples_processBody {g : Graph} {cls o c : Node} (hne : cls ≠ c)
    (hfr : nodeFresh c g.nextB = true) :
    subjTriples (processBody g cls o) c = subjTriples g c := by
  have hfr1 : nodeFresh c (graftAxiom g cls IAO_DEF (selDef (g.objects cls RDFS_comment))
      (plainLit (normalizeXref (pyStr o)))).nextB = true := by
    rw [graft_nextB]
    exact nodeFresh_mono (Nat.le_succ _) hfr
  unfold processBody
  rw [subjTriples_removeT_t hne, subjTriples_removeT_t hne, subjTriples_removeT_t hne,
    subjTriples_graft hne hfr1, subjTriples_graft hne hfr]

theorem mem_of_mem_processBody {g : Graph} {cls o : Node} {u : Triple}
    (h : u ∈ (processBody g cls o).triples) :
    u ∈ g.triples ∨ u.2.1 = IAO_DEF ∨ u.2.1 = HAS_SYN ∨ u.2.1 = RDF_type ∨
      u.2.1 = OWL_annotatedSource ∨ u.2.1 = OWL_annotatedProperty ∨
      u.2.1 = OWL_annotatedTarget ∨ u.2.1 = HAS_XREF := by
  unfold processBody at h
  simp only [Graph.mem_removeT] at h
  have h1 := h.1.1.1
  simp only [mem_graft] at h1
  rcases h1 with ((hg | rfl | rfl | rfl | rfl | rfl | rfl) | rfl | rfl | rfl | rfl | rfl | rfl)
  · exact Or.inl hg
  all_goals simp

/-- The three original triples removed by lines 92-94 are absent right after
the body runs. -/
theorem cleanup_notMem_processBody (g : Graph) (cls o : Node) :
    (cls, RDFS_comment, selName (g.objects cls RDFS_comment)) ∉ (processBody g cls o).triples ∧
    (cls, RDFS_comment, selDef (g.objects cls RDFS_comment)) ∉ (processBody g cls o).triples ∧
    (cls, RDFS_seeAlso, plainLit (pyStr o)) ∉ (processBody g cls o).triples := by
  unfold processBody
  refine ⟨?_, ?_, ?_⟩ <;> simp [Graph.mem_removeT]

/-! ### Case analysis of `processVisit` -/

theorem processVisit_nil_eq {g : Graph} {cls : Node}
    (hsee : g.objects cls RDFS_seeAlso = []) : processVisit g cls = (g, none) := by
  unfold processVisit
  rw [hsee]

theorem processVisit_cons_eq {g : Graph} {cls o : Node} {rest : List Node}
    (hsee : g.objects cls RDFS_seeAlso = o :: rest) :
    processVisit g cls =
      if (g.objects cls RDFS_comment).length < 2 then (g, none)
      else (processBody g cls o,
            some ⟨cls, selName (g.objects cls RDFS_comment),
                  selDef (g.objects cls RDFS_comment), pyStr o⟩) := by
  unfold processVisit
  rw [hsee]

theorem processVisit_skip {g : Graph} {cls : Node}
    (h : (g.objects cls RDFS_comment).length < 2) :
    processVisit g cls = (g, none) := by
  cases hsee : g.objects cls RDFS_seeAlso with
  | nil => exact processVisit_nil_eq hsee
  | cons o rest => rw [processVisit_cons_eq hsee, if_pos h]

theorem processVisit_none_eq {g : Graph} {cls : Node} {g1 : Graph}
    (h : processVisit g cls = (g1, none)) : g1 = g := by
  cases hsee : g.objects cls RDFS_seeAlso with
  | nil =>
    rw [processVisit_nil_eq hsee] at h
    rw [Prod.mk.injEq] at h
    exact h.1.symm
  | cons o rest =>
    rw [processVisit_cons_eq hsee] at h
    by_cases hc : (g.objects cls RDFS_comment).length < 2
    · rw [if_pos hc] at h
      rw [Prod.mk.injEq] at h
      exact h.1.symm
    · rw [if_neg hc] at h
      rw [Prod.mk.injEq] at h
      exact absurd h.2 (by simp)

theorem processVisit_some {g : Graph} {cls : Node} {g1 : Graph} {r : ProcRec}
    (h : processVisit g cls = (g1, some r)) :
    2 ≤ (g.objects cls RDFS_comment).length ∧
    ∃ o rest, g.objects cls RDFS_seeAlso = o :: rest ∧
      g1 = processBody g cls o ∧
      r = ⟨cls, selName (g.objects cls RDFS_comment), selDef (g.objects cls RDFS_comment),
           pyStr o⟩ := by
  cases hsee : g.objects cls RDFS_seeAlso with
  | nil =>
    rw [processVisit_nil_eq hsee] at h
    rw [Prod.mk.injEq] at h
    exact absurd h.2 (by simp)
  | cons o rest =>
    rw [processVisit_cons_eq hsee] at h
    by_cases hc : (g.objects cls RDFS_comment).length < 2
    · rw [if_pos hc] at h
      rw [Prod.mk.injEq] at h
      exact absurd h.2 (by simp)
    · rw [if_neg hc] at h
      rw [Prod.mk.injEq, Option.some.injEq] at h
      exact ⟨by omega, o, rest, rfl, h.1.symm, h.2.symm⟩

/-! ### Lemmas about the migration loop -/

theorem migrateLoop_cons_none {g g1 : Graph} {cls : Node} {rest : List Node}
    (h : processVisit g cls = (g1, none)) :
    migrateLoop g (cls :: rest) = migrateLoop g1 rest := by
  conv_lhs => unfold migrateLoop
  rw [h]

theorem migrateLoop_cons_some {g g1 : Graph} {cls : Node} {r : ProcRec} {rest : List Node}
    (h : processVisit g cls = (g1, some r)) :
    migrateLoop g (cls :: rest) =
      ((migrateLoop g1 rest).1, (migrateLoop g1 rest).2.1 + 1, r :: (migrateLoop g1 rest).2.2) := by
  conv_lhs => unfold migrateLoop
  rw [h]

theorem migrateLoop_some_fst {g g1 : Graph} {cls : Node} {r : ProcRec} {rest : List Node}
    (h : processVisit g cls = (g1, some r)) :
    (migrateLoop g (cls :: rest)).1 = (migrateLoop g1 rest).1 := by
  rw [migrateLoop_cons_some h]

theorem migrateLoop_some_count {g g1 : Graph} {cls : Node} {r : ProcRec} {rest : List Node}
    (h : processVisit g cls = (g1, some r)) :
    (migrateLoop g (cls :: rest)).2.1 = (migrateLoop g1 rest).2.1 + 1 := by
  rw [migrateLoop_cons_some h]

theorem migrateLoop_some_trace {g g1 : Graph} {cls : Node} {r : ProcRec} {rest : List Node}
    (h : processVisit g cls = (g1, some r)) :
    (migrateLoop g (cls :: rest)).2.2 = r :: (migrateLoop g1 rest).2.2 := by
  rw [migrateLoop_cons_some h]

/-- The count returned by the loop is the number of processed records. -/
theorem migrateLoop_count_eq (vs : List Node) (g : Graph) :
    (migrateLoop g vs).2.1 = (migrateLoop g vs).2.2.length := by
  induction vs generalizing g with
  | nil => rfl
  | cons v rest ih =>
    rcases hpv : processVisit g v with ⟨g1, _ | r⟩
    · rw [migrateLoop_cons_none hpv]
      exact ih g1
    · rw [migrateLoop_some_count hpv, migrateLoop_some_trace hpv, List.length_cons, ih g1]

/-- Every processed record names the subject occurrence it was produced for:
the processed subjects form a sublist of the visited list. -/
theorem migrateLoop_trace_sublist (vs : List Node) (g : Graph) :
    List.Sublist ((migrateLoop g vs).2.2.map ProcRec.cls) vs := by
  induction vs generalizing g with
  | nil => simp [migrateLoop]
  | cons v rest ih =>
    rcases hpv : processVisit g v with ⟨g1, _ | r⟩
    · rw [migrateLoop_cons_none hpv]
      exact (ih g1).trans (List.sublist_cons_self v rest)
    · obtain ⟨-, o, rest2, -, -, hr⟩ := processVisit_some hpv
      rw [migrateLoop_some_trace hpv, List.map_cons, hr]
      exact (ih g1).cons₂ v

/-- The loop never adds a comment or see-also triple: once absent, such a
triple stays absent. -/
theorem migrateLoop_notMem {u : Triple} (hpred : u.2.1 = RDFS_comment ∨ u.2.1 = RDFS_seeAlso)
    (vs : List Node) (g : Graph) (h : u ∉ g.triples) :
    u ∉ (migrateLoop g vs).1.triples := by
  induction vs generalizing g with
  | nil => exact h
  | cons v rest ih =>
    rcases hpv : processVisit g v with ⟨g1, _ | r⟩
    · rw [migrateLoop_cons_none hpv]
      rw [processVisit_none_eq hpv]
      exact ih g h
    · obtain ⟨-, o, rest2, -, hg1, -⟩ := processVisit_some hpv
      rw [migrateLoop_some_fst hpv]
      apply ih
      subst hg1
      intro hmem
      rcases mem_of_mem_processBody hmem with hg | hp | hp | hp | hp | hp | hp | hp
      · exact h hg
      all_goals
        rcases hpred with hc | hc <;>
          (rw [hp] at hc; exact absurd hc (by decide))

/-- If a subject keeps fewer than two comments, the loop leaves its triples
untouched and never records it. -/
theorem migrateLoop_skip_subj (vs : List Node) (g : Graph) (c : Node)
    (hfr : nodeFresh c g.nextB = true)
    (hcom : (g.objects c RDFS_comment).length < 2) :
    subjTriples (migrateLoop g vs).1 c = subjTriples g c ∧
      c ∉ (migrateLoop g vs).2.2.map ProcRec.cls := by
  induction vs generalizing g with
  | nil => exact ⟨rfl, by simp [migrateLoop]⟩
  | cons v rest ih =>
    by_cases hvc : v = c
    · subst hvc
      rw [migrateLoop_cons_none (processVisit_skip hcom)]
      exact ih g hfr hcom
    · rcases hpv : processVisit g v with ⟨g1, or⟩
      have hsub : subjTriples g1 c = subjTriples g c := by
        cases or with
        | none => rw [processVisit_none_eq hpv]
        | some r =>
          obtain ⟨-, o, rest2, -, hg1, -⟩ := processVisit_some hpv
          rw [hg1]
          exact subjTriples_processBody hvc hfr
      have hfr1 : nodeFresh c g1.nextB = true := by
        cases or with
        | none => rw [processVisit_none_eq hpv]; exact hfr
        | some r =>
          obtain ⟨-, o, rest2, -, hg1, -⟩ := processVisit_some hpv
          rw [hg1, processBody_nextB]
          exact nodeFresh_mono (by omega) hfr
      have hcom1 : (g1.objects c RDFS_comment).length < 2 := by
        rw [objects_congr hsub]
        exact hcom
      obtain ⟨h1, h2⟩ := ih g1 hfr1 hcom1
      cases or with
      | none =>
        rw [migrateLoop_cons_none hpv]
        exact ⟨h1.trans hsub, h2⟩
      | some r =>
        obtain ⟨-, o, rest2, -, -, hr⟩ := processVisit_some hpv
        rw [migrateLoop_some_fst hpv, migrateLoop_some_trace hpv]
        refine ⟨h1.trans hsub, ?_⟩
        rw [List.map_cons, List.mem_cons]
        rintro (hc | hc)
        · rw [hr] at hc
          exact hvc hc.symm
        · exact h2 hc

/-! ### The comment selection of lines 84-85 -/

theorem sorted_headD_lenLE :
    ∀ (s : List Node) (d : Node), List.Sorted lenLE s → ∀ c ∈ s, lenLE (s.headD d) c
  | [], _, _, c, hc => absurd hc (List.not_mem_nil c)
  | a :: tail, d, hs, c, hc => by
    rw [List.headD_cons]
    rcases List.mem_cons.mp hc with rfl | hc2
    · exact Nat.le_refl _
    · exact List.rel_of_sorted_cons hs c hc2

theorem sorted_getLastD_lenLE :
    ∀ (s : List Node) (d : Node), List.Sorted lenLE s → ∀ c ∈ s, lenLE c (s.getLastD d)
  | [], _, _, c, hc => absurd hc (List.not_mem_nil c)
  | [a], _, _, c, hc => by
    rw [List.mem_singleton] at hc
    subst hc
    exact Nat.le_refl _
  | a :: b :: tail, d, hs, c, hc => by
    rw [List.getLastD_cons]
    rcases List.mem_cons.mp hc with rfl | hc2
    · have hab : lenLE c b := List.rel_of_sorted_cons hs b (List.mem_cons_self b tail)
      have hb := sorted_getLastD_lenLE (b :: tail) c hs.of_cons b (List.mem_cons_self b tail)
      exact Nat.le_trans hab hb
    · exact sorted_getLastD_lenLE (b :: tail) c hs.of_cons c hc2

theorem selName_min {coms : List Node} {c : Node} (hc : c ∈ coms) :
    lenLE (selName coms) c := by
  unfold selName
  exact sorted_headD_lenLE _ _ (List.sorted_insertionSort lenLE coms)
    c ((List.mem_insertionSort lenLE).mpr hc)

theorem selDef_max {coms : List Node} {c : Node} (hc : c ∈ coms) :
    lenLE c (selDef coms) := by
  unfold selDef
  exact sorted_getLastD_lenLE _ _ (List.sorted_insertionSort lenLE coms)
    c ((List.mem_insertionSort lenLE).mpr hc)

theorem getLastD_mem : ∀ (l : List Node) (d : Node), l ≠ [] → l.getLastD d ∈ l
  | [], _, h => absurd rfl h
  | [a], _, _ => by simp
  | a :: b :: t, _, _ => by
    rw [List.getLastD_cons]
    exact List.mem_cons_of_mem a (getLastD_mem (b :: t) a (by simp))

theorem selName_mem {coms : List Node} (hne : coms ≠ []) : selName coms ∈ coms := by
  have hlen : (coms.insertionSort lenLE).length = coms.length :=
    List.length_insertionSort lenLE coms
  cases hs : coms.insertionSort lenLE with
  | nil =>
    rw [hs] at hlen
    exact absurd (List.length_eq_zero.mp hlen.symm) hne
  | cons a tail =>
    have hsel : selName coms = a := by unfold selName; rw [hs, List.headD_cons]
    rw [hsel]
    have : a ∈ coms.insertionSort lenLE := by
      rw [hs]
      exact List.mem_cons_self a tail
    exact (List.mem_insertionSort lenLE).mp this

theorem selDef_mem {coms : List Node} (hne : coms ≠ []) : selDef coms ∈ coms := by
  have hlen : (coms.insertionSort lenLE).length = coms.length :=
    List.length_insertionSort lenLE coms
  cases hs : coms.insertionSort lenLE with
  | nil =>
    rw [hs] at hlen
    exact absurd (List.length_eq_zero.mp hlen.symm) hne
  | cons a tail =>
    have hsel : selDef coms = (a :: tail).getLastD (plainLit "") := by
      unfold selDef
      rw [hs]
    rw [hsel]
    have hmem : (a :: tail).getLastD (plainLit "") ∈ coms.insertionSort lenLE := by
      rw [hs]
      exact getLastD_mem (a :: tail) (plainLit "") (by simp)
    exact (List.mem_insertionSort lenLE).mp hmem

/-- Stability of the selection: among the comments of minimal length, the one
listed first is chosen as the name. -/
theorem selName_first_min {coms : List Node} (hnd : coms.Nodup) (hne : coms ≠ []) :
    coms.find? (fun c => decide ((pyStr c).length = (pyStr (selName coms)).length))
      = some (selName coms) := by
  set n := selName coms with hndef
  set p : Node → Bool := fun c => decide ((pyStr c).length = (pyStr n).length) with hp
  have hn : n ∈ coms := by
    rw [hndef]
    exact selName_mem hne
  have hpn : p n = true := by simp [hp]
  cases hfind : coms.find? p with
  | none =>
    rw [List.find?_eq_none] at hfind
    exact absurd hpn (by simpa using hfind n hn)
  | some m =>
    have hpm : p m = true := List.find?_some hfind
    by_cases hmn : m = n
    · rw [hmn]
    · exfalso
      obtain ⟨-, as, bs, hsplit, has⟩ := List.find?_eq_some.mp hfind
      have hnbs : n ∈ bs := by
        have hn2 : n ∈ as ++ m :: bs := by
          rw [← hsplit]
          exact hn
        rcases List.mem_append.mp hn2 with hna | hnc
        · exact absurd hpn (by simpa using has _ hna)
        · rcases List.mem_cons.mp hnc with heq | hnb
          · exact absurd heq.symm hmn
          · exact hnb
      have hpair : List.Sublist [m, n] coms := by
        rw [hsplit]
        exact ((List.singleton_sublist.mpr hnbs).cons₂ m).trans
          (List.sublist_append_right as (m :: bs))
      have hlen_eq : (pyStr m).length = (pyStr n).length := by
        rw [hp] at hpm
        exact of_decide_eq_true hpm
      have hle : lenLE m n := Nat.le_of_eq hlen_eq
      have hpairs : List.Sublist [m, n] (coms.insertionSort lenLE) :=
        List.pair_sublist_insertionSort hle hpair
      have hnodups : (coms.insertionSort lenLE).Nodup :=
        ((List.perm_insertionSort lenLE coms).nodup_iff).mpr hnd
      cases hs : coms.insertionSort lenLE with
      | nil =>
        rw [hs] at hpairs
        simp at hpairs
      | cons a tail =>
        have hsel : n = a := by
          rw [hndef]
          unfold selName
          rw [hs, List.headD_cons]
        rw [hs] at hpairs hnodups
        rcases List.sublist_cons_iff.mp hpairs with htail | ⟨r, hr, -⟩
        · have hcontra : n ∈ tail := htail.subset (by simp)
          rw [hsel] at hcontra
          exact (List.nodup_cons.mp hnodups).1 hcontra
        · rw [List.cons.injEq] at hr
          exact hmn (hr.1.trans hsel.symm)

/-! ### Append form of set insertion, and no-duplicate facts -/

theorem Graph.add_eq {g : Graph} {t : Triple} (h : t ∉ g.triples) :
    (g.add t).triples = g.triples ++ [t] := by
  unfold Graph.add
  rw [if_neg h]

theorem add_mk {l : List Triple} {b : Nat} {t : Triple} (h : t ∉ l) :
    (Graph.mk l b).add t = Graph.mk (l ++ [t]) b := by
  unfold Graph.add
  rw [if_neg h]

theorem notMem_append_singleton {t b : Triple} {L : List Triple} (h1 : t ∉ L) (h2 : t ≠ b) :
    t ∉ L ++ [b] := by
  rw [List.mem_append, List.mem_singleton]
  rintro (h | h)
  · exact h1 h
  · exact h2 h

theorem eq_of_mem_of_length_le_one {α : Type} {l : List α} (h : l.length ≤ 1) {a b : α}
    (ha : a ∈ l) (hb : b ∈ l) : a = b := by
  cases l with
  | nil => exact absurd ha (List.not_mem_nil a)
  | cons x xs =>
    cases xs with
    | nil =>
      rw [List.mem_singleton] at ha hb
      rw [ha, hb]
    | cons y ys =>
      simp [List.length_cons] at h

/-- In a duplicate-free store, the object listing of a subject-predicate pair
has no duplicates either. -/
theorem objects_nodup {g : Graph} (hnd : g.triples.Nodup) (c p : Node) :
    (g.objects c p).Nodup := by
  unfold Graph.objects
  apply List.Nodup.map_on ?_ (hnd.filter _)
  intro x hx y hy hxy
  rw [List.mem_filter] at hx hy
  have hx2 : x.1 = c ∧ x.2.1 = p := by simpa using hx.2
  have hy2 : y.1 = c ∧ y.2.1 = p := by simpa using hy.2
  have hxy3 : x.2.2 = y.2.2 := hxy
  rcases x with ⟨x1, x2, x3⟩
  rcases y with ⟨y1, y2, y3⟩
  simp only at hx2 hy2 hxy3
  rw [Prod.mk.injEq, Prod.mk.injEq]
  exact ⟨hx2.1.trans hy2.1.symm, hx2.2.trans hy2.2.symm, hxy3⟩

/-- When every subject carries at most one see-also triple, the subject
enumeration lists pairwise distinct subjects. -/
theorem subjects_nodup {g : Graph} (hnd : g.triples.Nodup)
    (hone : ∀ t ∈ g.triples, (g.objects t.1 RDFS_seeAlso).length ≤ 1) :
    (g.subjectsWithPred RDFS_seeAlso).Nodup := by
  unfold Graph.subjectsWithPred
  apply List.Nodup.map_on ?_ (hnd.filter _)
  intro x hx y hy hxy
  rw [List.mem_filter] at hx hy
  have hxp : x.2.1 = RDFS_seeAlso := by simpa using hx.2
  have hyp : y.2.1 = RDFS_seeAlso := by simpa using hy.2
  have hxy1 : x.1 = y.1 := hxy
  have hlen := hone x hx.1
  unfold Graph.objects at hlen
  rw [List.length_map] at hlen
  have hxf : x ∈ g.triples.filter (fun t => decide (t.1 = x.1 ∧ t.2.1 = RDFS_seeAlso)) :=
    List.mem_filter.mpr ⟨hx.1, by simp [hxp]⟩
  have hyf : y ∈ g.triples.filter (fun t => decide (t.1 = x.1 ∧ t.2.1 = RDFS_seeAlso)) :=
    List.mem_filter.mpr ⟨hy.1, by simp [hyp, ← hxy1]⟩
  exact eq_of_mem_of_length_le_one hlen hxf hyf

/-- The three triples removed for a processed record stay absent until the end
of the run. -/
theorem migrateLoop_cleanup (vs : List Node) (g : Graph) (r : ProcRec)
    (hr : r ∈ (migrateLoop g vs).2.2) :
    (r.cls, RDFS_comment, r.nameLit) ∉ (migrateLoop g vs).1.triples ∧
    (r.cls, RDFS_comment, r.defLit) ∉ (migrateLoop g vs).1.triples ∧
    (r.cls, RDFS_seeAlso, plainLit r.rawStr) ∉ (migrateLoop g vs).1.triples := by
  induction vs generalizing g with
  | nil => simp [migrateLoop] at hr
  | cons v rest ih =>
    rcases hpv : processVisit g v with ⟨g1, or⟩
    cases or with
    | none =>
      rw [migrateLoop_cons_none hpv] at hr ⊢
      exact ih g1 hr
    | some r0 =>
      rw [migrateLoop_some_trace hpv] at hr
      rw [migrateLoop_some_fst hpv]
      rcases List.mem_cons.mp hr with rfl | hr2
      · obtain ⟨-, o, rest2, -, hg1, hrdef⟩ := processVisit_some hpv
        subst hg1
        have hclean := cleanup_notMem_processBody g v o
        rw [hrdef]
        refine ⟨?_, ?_, ?_⟩
        · exact migrateLoop_notMem (Or.inl rfl) rest _ hclean.1
        · exact migrateLoop_notMem (Or.inl rfl) rest _ hclean.2.1
        · exact migrateLoop_notMem (Or.inr rfl) rest _ hclean.2.2
      · exact ih g1 hr2

/-! ### The claims -/

/-- C1: on the input graph with the single class `ex:C123` carrying
(C123, seeAlso, "C999"), (C123, comment, "Short name") and
(C123, comment, "A much longer descriptive definition of the concept."),
`migrate` reports one processed class, the output contains the definition and
synonym assertions, two new anonymous axiom nodes each carrying
hasDbXref "NCIT:C999", and none of the original see-also or comment triples
of C123 remain. -/
theorem c1_end_to_end_scenario :
    (migrateGraph gC1).2.1 = 1 ∧
    (exC123, IAO_DEF, longDef) ∈ (migrateGraph gC1).1.triples ∧
    (exC123, HAS_SYN, shortName) ∈ (migrateGraph gC1).1.triples ∧
    (Node.bnode 0, RDF_type, OWL_Axiom) ∈ (migrateGraph gC1).1.triples ∧
    (Node.bnode 1, RDF_type, OWL_Axiom) ∈ (migrateGraph gC1).1.triples ∧
    (Node.bnode 0, HAS_XREF, plainLit "NCIT:C999") ∈ (migrateGraph gC1).1.triples ∧
    (Node.bnode 1, HAS_XREF, plainLit "NCIT:C999") ∈ (migrateGraph gC1).1.triples ∧
    (∀ t ∈ gC1.triples, t.1 ≠ Node.bnode 0 ∧ t.1 ≠ Node.bnode 1) ∧
    (exC123, RDFS_seeAlso, plainLit "C999") ∉ (migrateGraph gC1).1.triples ∧
    (exC123, RDFS_comment, shortName) ∉ (migrateGraph gC1).1.triples ∧
    (exC123, RDFS_comment, longDef) ∉ (migrateGraph gC1).1.triples := by
  refine ⟨by decide, by decide, by decide, by decide, by decide, by decide, by decide,
    by decide, by decide, by decide, by decide⟩

/-- C8: the cross-reference normalization leaves a string that already starts
with "NCIT:" unchanged, prepends "NCIT:" exactly once to any other string,
and is idempotent. -/
theorem c8_normalize_idempotent (t : String) :
    (pyStartsWith t "NCIT:" = true → normalizeXref t = t) ∧
    (pyStartsWith t "NCIT:" = false → normalizeXref t = "NCIT:" ++ t) ∧
    normalizeXref (normalizeXref t) = normalizeXref t := by
  refine ⟨?_, ?_, ?_⟩
  · intro h
    unfold normalizeXref
    rw [if_pos h]
  · intro h
    unfold normalizeXref
    rw [if_neg (by simp [h])]
  · by_cases h : pyStartsWith t "NCIT:" = true
    · have h1 : normalizeXref t = t := by
        unfold normalizeXref
        rw [if_pos h]
      rw [h1]
      exact h1
    · have hf : pyStartsWith t "NCIT:" = false := by
        rwa [Bool.not_eq_true] at h
      have hpre : pyStartsWith ("NCIT:" ++ t) "NCIT:" = true := by
        unfold pyStartsWith
        rw [List.isPrefixOf_iff_prefix, String.data_append]
        exact List.prefix_append _ _
      have h1 : normalizeXref t = "NCIT:" ++ t := by
        unfold normalizeXref
        rw [if_neg (by simp [hf])]
      rw [h1]
      unfold normalizeXref
      rw [if_pos hpre]

/-- C8 witness at the raw text "C999". -/
theorem c8_witness :
    pyStartsWith "C999" "NCIT:" = false ∧
    normalizeXref "C999" = "NCIT:" ++ "C999" ∧
    normalizeXref (normalizeXref "C999") = normalizeXref "C999" :=
  ⟨by decide, (c8_normalize_idempotent "C999").2.1 (by decide),
    (c8_normalize_idempotent "C999").2.2⟩

/-- C9: when the source path does not exist or is not a regular file, `main`
exits with code 1 before creating destination directories and before any
graph work. -/
theorem c9_preflight_failure (fs : FsView)
    (h : fs.srcExists = false ∨ fs.srcIsFile = false) :
    mainSteps fs = (some 1, []) := by
  rcases h with h | h
  · simp [mainSteps, h]
  · cases hE : fs.srcExists <;> simp [mainSteps, hE, h]

/-- C9 witness: a missing source path. -/
theorem c9_witness : mainSteps ⟨false, true⟩ = (some 1, []) :=
  c9_preflight_failure ⟨false, true⟩ (Or.inl rfl)

/-- C10: `graftAxiom` never removes a triple: whatever was in the graph
before the call is still there afterwards, for all argument values. -/
theorem c10_graft_preserves (g : Graph) (s p l x : Node) (t : Triple)
    (h : t ∈ g.triples) : t ∈ (graftAxiom g s p l x).triples := by
  rw [mem_graft]
  exact Or.inl h

/-- C10 witness on a one-triple graph. -/
theorem c10_witness :
    (Node.iri "a", Node.iri "b", plainLit "c") ∈ gW10.triples ∧
    (Node.iri "a", Node.iri "b", plainLit "c")
      ∈ (graftAxiom gW10 (Node.iri "s") IAO_DEF (plainLit "d") (plainLit "x")).triples :=
  ⟨by decide, c10_graft_preserves gW10 (Node.iri "s") IAO_DEF (plainLit "d") (plainLit "x")
    (Node.iri "a", Node.iri "b", plainLit "c") (by decide)⟩

/-- C5: a class with a see-also triple but fewer than two comment triples is
left completely untouched by `migrate` (its triples are unchanged, as a list)
and it is never recorded as processed. -/
theorem c5_skip_invariant (g : Graph) (c : Node) (hwf : g.wf)
    (hsee : g.objects c RDFS_seeAlso ≠ [])
    (hcom : (g.objects c RDFS_comment).length < 2) :
    subjTriples (migrateGraph g).1 c = subjTriples g c ∧
      c ∉ (migrateGraph g).2.2.map ProcRec.cls := by
  have hfr : nodeFresh c g.nextB = true := by
    unfold Graph.objects at hsee
    cases hfilt : g.triples.filter (fun t => decide (t.1 = c ∧ t.2.1 = RDFS_seeAlso)) with
    | nil =>
      rw [hfilt] at hsee
      simp at hsee
    | cons t ts =>
      have ht : t ∈ g.triples.filter (fun t => decide (t.1 = c ∧ t.2.1 = RDFS_seeAlso)) := by
        rw [hfilt]
        exact List.mem_cons_self t ts
      rw [List.mem_filter] at ht
      have h2 : t.1 = c ∧ t.2.1 = RDFS_seeAlso := by simpa using ht.2
      have hf := hwf.2 t ht.1
      simp only [tripleFresh, Bool.and_eq_true] at hf
      rw [← h2.1]
      exact hf.1.1
  exact migrateLoop_skip_subj _ g c hfr hcom

/-- C5 witness: one class with a see-also triple and a single comment. -/
theorem c5_witness :
    gW5.wf ∧ gW5.objects cW5 RDFS_seeAlso ≠ [] ∧
    (gW5.objects cW5 RDFS_comment).length < 2 ∧
    (subjTriples (migrateGraph gW5).1 cW5 = subjTriples gW5 cW5 ∧
      cW5 ∉ (migrateGraph gW5).2.2.map ProcRec.cls) :=
  ⟨by decide, by decide, by decide,
    c5_skip_invariant gW5 cW5 (by decide) (by decide) (by decide)⟩

/-- C7: for a processed class, the recorded name/synonym literal is a comment
of minimal text length, the recorded definition literal is a comment of
maximal text length, and among the comments of minimal length the one
encountered first in the object enumeration is the one chosen. -/
theorem c7_selection (g : Graph) (cls : Node) (g1 : Graph) (r : ProcRec) (hwf : g.wf)
    (h : processVisit g cls = (g1, some r)) :
    r.nameLit ∈ g.objects cls RDFS_comment ∧
    r.defLit ∈ g.objects cls RDFS_comment ∧
    (∀ c ∈ g.objects cls RDFS_comment,
      (pyStr r.nameLit).length ≤ (pyStr c).length ∧
      (pyStr c).length ≤ (pyStr r.defLit).length) ∧
    (g.objects cls RDFS_comment).find?
        (fun c => decide ((pyStr c).length = (pyStr r.nameLit).length)) = some r.nameLit := by
  obtain ⟨hlen, o, rest, -, -, hrdef⟩ := processVisit_some h
  have hne : g.objects cls RDFS_comment ≠ [] := by
    intro he
    rw [he] at hlen
    simp at hlen
  have hnd : (g.objects cls RDFS_comment).Nodup := objects_nodup hwf.1 cls RDFS_comment
  subst hrdef
  exact ⟨selName_mem hne, selDef_mem hne,
    fun c hc => ⟨selName_min hc, selDef_max hc⟩, selName_first_min hnd hne⟩

/-- C7 witness: two comments listed longer-first; the shorter, listed second,
is selected as the name. -/
theorem c7_witness :
    gW7.wf ∧ processVisit gW7 cW7 = (g1W7, some rW7) ∧
    (rW7.nameLit ∈ gW7.objects cW7 RDFS_comment ∧
      rW7.defLit ∈ gW7.objects cW7 RDFS_comment ∧
      (∀ c ∈ gW7.objects cW7 RDFS_comment,
        (pyStr rW7.nameLit).length ≤ (pyStr c).length ∧
        (pyStr c).length ≤ (pyStr rW7.defLit).length) ∧
      (gW7.objects cW7 RDFS_comment).find?
          (fun c => decide ((pyStr c).length = (pyStr rW7.nameLit).length)) = some rW7.nameLit) :=
  ⟨by decide, by decide, c7_selection gW7 cW7 g1W7 rW7 (by decide) (by decide)⟩

/-- C2 counterexample: on a graph that already contains the assertion triple
(S, P, L), one graft adds only five triples, not six — the set-semantics
insertion of the assertion triple is a no-op. -/
theorem c2_counterexample :
    (graftAxiom gC2 (Node.iri "s") (Node.iri "p") (plainLit "l") (plainLit "x")).triples.length
      = gC2.triples.length + 5 := by
  decide

/-- C2 (amended): when the assertion triple (S, P, L) is not already present
and the graph is well formed, one graft appends exactly the six triples — the
assertion plus the five triples describing one fresh anonymous axiom node —
and removes nothing. -/
theorem c2_graft_adds_exactly_six (g : Graph) (S P L X : Node) (hwf : g.wf)
    (hnot : (S, P, L) ∉ g.triples) (hS : nodeFresh S g.nextB = true) :
    (graftAxiom g S P L X).triples
      = g.triples ++ [(S, P, L),
          (Node.bnode g.nextB, RDF_type, OWL_Axiom),
          (Node.bnode g.nextB, OWL_annotatedSource, S),
          (Node.bnode g.nextB, OWL_annotatedProperty, P),
          (Node.bnode g.nextB, OWL_annotatedTarget, L),
          (Node.bnode g.nextB, HAS_XREF, X)] := by
  have hsub : ∀ u ∈ g.triples, u.1 ≠ Node.bnode g.nextB := by
    intro u hu
    have hf := hwf.2 u hu
    simp only [tripleFresh, Bool.and_eq_true] at hf
    exact nodeFresh_ne_bnode hf.1.1
  have haxS : S ≠ Node.bnode g.nextB := nodeFresh_ne_bnode hS
  have base : ∀ p o : Node, (Node.bnode g.nextB, p, o) ∉ g.triples :=
    fun p o h => hsub _ h rfl
  have ne1 : ∀ p o : Node, (Node.bnode g.nextB, p, o) ≠ (S, P, L) :=
    fun p o h => haxS (congrArg Prod.fst h).symm
  have neP : ∀ {p q : Node}, p ≠ q → ∀ o oo : Node,
      (Node.bnode g.nextB, p, o) ≠ (Node.bnode g.nextB, q, oo) := by
    intro p q hpq o oo h
    exact hpq (congrArg (fun u => u.2.1) h)
  have m2 : (Node.bnode g.nextB, RDF_type, OWL_Axiom) ∉ g.triples ++ [(S, P, L)] :=
    notMem_append_singleton (base _ _) (ne1 _ _)
  have m3 : (Node.bnode g.nextB, OWL_annotatedSource, S)
      ∉ (g.triples ++ [(S, P, L)]) ++ [(Node.bnode g.nextB, RDF_type, OWL_Axiom)] :=
    notMem_append_singleton (notMem_append_singleton (base _ _) (ne1 _ _))
      (neP (by decide) _ _)
  have m4 : (Node.bnode g.nextB, OWL_annotatedProperty, P)
      ∉ ((g.triples ++ [(S, P, L)]) ++ [(Node.bnode g.nextB, RDF_type, OWL_Axiom)])
        ++ [(Node.bnode g.nextB, OWL_annotatedSource, S)] :=
    notMem_append_singleton
      (notMem_append_singleton (notMem_append_singleton (base _ _) (ne1 _ _))
        (neP (by decide) _ _))
      (neP (by decide) _ _)
  have m5 : (Node.bnode g.nextB, OWL_annotatedTarget, L)
      ∉ (((g.triples ++ [(S, P, L)]) ++ [(Node.bnode g.nextB, RDF_type, OWL_Axiom)])
        ++ [(Node.bnode g.nextB, OWL_annotatedSource, S)])
        ++ [(Node.bnode g.nextB, OWL_annotatedProperty, P)] :=
    notMem_append_singleton
      (notMem_append_singleton
        (notMem_append_singleton (notMem_append_singleton (base _ _) (ne1 _ _))
          (neP (by decide) _ _))
        (neP (by decide) _ _))
      (neP (by decide) _ _)
  have m6 : (Node.bnode g.nextB, HAS_XREF, X)
      ∉ ((((g.triples ++ [(S, P, L)]) ++ [(Node.bnode g.nextB, RDF_type, OWL_Axiom)])
        ++ [(Node.bnode g.nextB, OWL_annotatedSource, S)])
        ++ [(Node.bnode g.nextB, OWL_annotatedProperty, P)])
        ++ [(Node.bnode g.nextB, OWL_annotatedTarget, L)] :=
    notMem_append_singleton
      (notMem_append_singleton
        (notMem_append_singleton
          (notMem_append_singleton (notMem_append_singleton (base _ _) (ne1 _ _))
            (neP (by decide) _ _))
          (neP (by decide) _ _))
        (neP (by decide) _ _))
      (neP (by decide) _ _)
  rcases g with ⟨l, b⟩
  simp only [graftAxiom, Graph.add_nextB]
  rw [add_mk hnot, add_mk m2, add_mk m3, add_mk m4, add_mk m5, add_mk m6]
  simp [List.append_assoc]

/-- C2 witness: grafting on the empty graph. -/
theorem c2_witness :
    gW2.wf ∧ ((Node.iri "s", Node.iri "p", plainLit "l") ∉ gW2.triples) ∧
    nodeFresh (Node.iri "s") gW2.nextB = true ∧
    (graftAxiom gW2 (Node.iri "s") (Node.iri "p") (plainLit "l") (plainLit "x")).triples
      = gW2.triples ++ [(Node.iri "s", Node.iri "p", plainLit "l"),
          (Node.bnode gW2.nextB, RDF_type, OWL_Axiom),
          (Node.bnode gW2.nextB, OWL_annotatedSource, Node.iri "s"),
          (Node.bnode gW2.nextB, OWL_annotatedProperty, Node.iri "p"),
          (Node.bnode gW2.nextB, OWL_annotatedTarget, plainLit "l"),
          (Node.bnode gW2.nextB, HAS_XREF, plainLit "x")] :=
  ⟨by decide, by decide, by decide,
    c2_graft_adds_exactly_six gW2 (Node.iri "s") (Node.iri "p") (plainLit "l") (plainLit "x")
      (by decide) (by decide) (by decide)⟩

/-- C3 counterexample: a processed class whose see-also object is an IRI
keeps its original see-also triple in the output — the removal only matches
the plain literal rebuilt from the raw string. -/
theorem c3_counterexample :
    (migrateGraph gC3).2.1 = 1 ∧
    (dC3, RDFS_seeAlso, Node.iri "C9") ∈ (migrateGraph gC3).1.triples := by
  refine ⟨by decide, by decide⟩

/-- C3 (amended): for every record processed by migrate, the comment triples
for the chosen name and definition literals are absent from the output, and
so is the see-also triple whose object is the plain untyped literal built
from the raw string — which coincides with the original see-also triple
exactly when its object was such a plain literal (not an IRI or a tagged or
typed literal). -/
theorem c3_cleanup_plain_literal (g : Graph) (r : ProcRec)
    (hr : r ∈ (migrateGraph g).2.2) :
    (r.cls, RDFS_comment, r.nameLit) ∉ (migrateGraph g).1.triples ∧
    (r.cls, RDFS_comment, r.defLit) ∉ (migrateGraph g).1.triples ∧
    (r.cls, RDFS_seeAlso, plainLit r.rawStr) ∉ (migrateGraph g).1.triples :=
  migrateLoop_cleanup _ g r hr

/-- C3 witness: one processed class with a plain-literal see-also object. -/
theorem c3_witness :
    rW3 ∈ (migrateGraph gW3).2.2 ∧
    ((rW3.cls, RDFS_comment, rW3.nameLit) ∉ (migrateGraph gW3).1.triples ∧
      (rW3.cls, RDFS_comment, rW3.defLit) ∉ (migrateGraph gW3).1.triples ∧
      (rW3.cls, RDFS_seeAlso, plainLit rW3.rawStr) ∉ (migrateGraph gW3).1.triples) :=
  ⟨by decide, c3_cleanup_plain_literal gW3 rW3 (by decide)⟩

/-- C4 counterexample: a subject with two see-also triples and four comments
is enumerated twice, rewritten twice and counted twice. -/
theorem c4_counterexample :
    (migrateGraph gC4).2.1 = 2 ∧
    ((migrateGraph gC4).2.2.map ProcRec.cls) = [cC4, cC4] := by
  refine ⟨by decide, by decide⟩

/-- C4 (amended): subjects are enumerated once per see-also triple, so when
every subject carries at most one see-also triple, no subject is processed or
counted more than once. -/
theorem c4_single_seealso_processed_once (g : Graph) (hwf : g.wf)
    (hone : ∀ t ∈ g.triples, (g.objects t.1 RDFS_seeAlso).length ≤ 1) :
    ((migrateGraph g).2.2.map ProcRec.cls).Nodup :=
  List.Nodup.sublist (migrateLoop_trace_sublist _ g) (subjects_nodup hwf.1 hone)

/-- C4 witness: one subject with a single see-also triple. -/
theorem c4_witness :
    gW4.wf ∧ (∀ t ∈ gW4.triples, (gW4.objects t.1 RDFS_seeAlso).length ≤ 1) ∧
    ((migrateGraph gW4).2.2.map ProcRec.cls).Nodup :=
  ⟨by decide, by decide, c4_single_seealso_processed_once gW4 (by decide) (by decide)⟩

/-- C6 counterexample: the returned count (2) differs from the number of
distinct subjects actually rewritten (1) when one subject carries two
see-also triples. -/
theorem c6_counterexample :
    (migrateGraph gC6).2.1 = 2 ∧
    ((migrateGraph gC6).2.2.map ProcRec.cls).dedup.length = 1 := by
  refine ⟨by decide, by decide⟩

/-- C6 (amended): migrate returns the number of processing events in which a
class was rewritten — one event per enumerated see-also subject occurrence —
rather than the number of distinct rewritten subjects. -/
theorem c6_count_is_event_count (g : Graph) :
    (migrateGraph g).2.1 = (migrateGraph g).2.2.length ∧
    List.Sublist ((migrateGraph g).2.2.map ProcRec.cls) (g.subjectsWithPred RDFS_seeAlso) :=
  ⟨migrateLoop_count_eq _ g, migrateLoop_trace_sublist _ g⟩

end Hpvco
